import Mathlib

/-!
Verification of the bencher parameter-sweep engine specification.

The repository snapshot provides the project manifest, example notebooks and
design documents, but not the core package modules implementing the sweep
engine itself.  Following the specification (spec.md §3-§7), the data model and
operations below are therefore modelled directly from the spec's words; each
such definition carries a doc comment naming the missing source component.
All values are modelled over ℚ (the spec describes exact arithmetic over
variable bounds and results; determinism makes results exact in the model).
-/

namespace Bencher

/-- Modelled from the spec: the SweepSpace / Level Discretizer for a
continuous variable with bounds `[a, b]` (§4.1; the source module
`bencher/variables` with the sweep classes is absent from the snapshot).
Level 1 yields the single midpoint `(a+b)/2`; level `L > 1` yields
`2^(L-1) + 1` evenly spaced points spanning `[a, b]` inclusive. -/
def levelDomain (a b : ℚ) (L : ℕ) : List ℚ :=
  if L ≤ 1 then [(a + b) / 2]
  else (List.range (2 ^ (L - 1) + 1)).map
    (fun i : ℕ => a + (b - a) * (i : ℚ) / 2 ^ (L - 1))

/-- Modelled from the spec: the ResultDataset restricted to one continuous
variable — an association list from coordinate to stored cell value, with
`dsLookup` as the cell accessor by coordinate (§3, §6; the source module
`bencher/results` is absent from the snapshot). -/
def dsLookup (ds : List (ℚ × ℚ)) (c : ℚ) : Option ℚ :=
  (ds.find? (fun p => p.1 == c)).map Prod.snd

/-- Modelled from the spec: computing a level's dataset by evaluating the
deterministic user callable at each coordinate of the level's domain (§4.4;
the executor source module is absent from the snapshot). -/
def computeDS (f : ℚ → ℚ) (coords : List ℚ) : List (ℚ × ℚ) :=
  coords.map (fun c => (c, f c))

/-- Modelled from the spec: the Aggregator merge of an existing level-L
dataset with newly computed points — coordinates already present keep their
stored value, only new coordinates are appended (§4.5, §4.6; the source
module `bencher/results` aggregation is absent from the snapshot). -/
def dsMerge (old new : List (ℚ × ℚ)) : List (ℚ × ℚ) :=
  old ++ new.filter (fun p => (dsLookup old p.1).isNone)

/-- Modelled from the spec: the Level Manager diff — the coordinates of
level `L+1` that are not already present at level `L` (§4.6). -/
def newLevelCoords (a b : ℚ) (L : ℕ) : List ℚ :=
  (levelDomain a b (L + 1)).filter (fun c => !(levelDomain a b L).contains c)

/-- Modelled from the spec: extending a level-L dataset to level `L+1` by
computing only the newly introduced coordinates and merging (§4.6). -/
def extendToNextLevel (f : ℚ → ℚ) (a b : ℚ) (L : ℕ) (ds : List (ℚ × ℚ)) :
    List (ℚ × ℚ) :=
  dsMerge ds (computeDS f (newLevelCoords a b L))

/-- Modelled from the spec: executor state — the fingerprint-keyed Execution
Cache (fingerprints are (ParameterPoint, repeat index) pairs, §3) together
with the running count of user-callable invocations (§4.3, §4.4; the modules
`bencher/caching` and the executor are absent from the snapshot). -/
structure ExecState (P α : Type) where
  cache : List ((P × ℕ) × α)
  invocations : ℕ

/-- Modelled from the spec: `get(fingerprint) → result | miss` on the
Execution Cache (§4.3). -/
def cacheGet {P α : Type} [DecidableEq P] (cache : List ((P × ℕ) × α))
    (k : P × ℕ) : Option α :=
  (cache.find? (fun e => decide (e.1 = k))).map Prod.snd

/-- Modelled from the spec: `put(fingerprint, result)` on the Execution
Cache (§4.3). -/
def cachePut {P α : Type} (cache : List ((P × ℕ) × α)) (k : P × ℕ) (v : α) :
    List ((P × ℕ) × α) :=
  (k, v) :: cache

/-- Modelled from the spec: the Executor's handling of one
(ParameterPoint, repeat) cell — on a cache hit reuse the stored result, on a
miss invoke the user callable, store and record the result (§4.4). -/
def evalCell {P α : Type} [DecidableEq P] (f : P → ℕ → α) (s : ExecState P α)
    (p : P) (r : ℕ) : ExecState P α :=
  match cacheGet s.cache (p, r) with
  | some _ => s
  | none =>
    { cache := cachePut s.cache (p, r) (f p r), invocations := s.invocations + 1 }

/-- Evaluating one point for the repeat indices `start+1 … start+len`. -/
def runRange {P α : Type} [DecidableEq P] (f : P → ℕ → α) (s : ExecState P α)
    (p : P) (start len : ℕ) : ExecState P α :=
  (List.range' start len).foldl (fun t r => evalCell f t p (r + 1)) s

/-- Modelled from the spec: the Executor's loop over the repeat indices
`1 … R` of one ParameterPoint (§4.4). -/
def runPoint {P α : Type} [DecidableEq P] (f : P → ℕ → α) (s : ExecState P α)
    (p : P) (R : ℕ) : ExecState P α :=
  (List.range R).foldl (fun t r => evalCell f t p (r + 1)) s

/-- Modelled from the spec: the Executor's loop over all enumerated
ParameterPoints with `R` repeats each (§4.4). -/
def runSweep {P α : Type} [DecidableEq P] (f : P → ℕ → α) (s : ExecState P α)
    (points : List P) (R : ℕ) : ExecState P α :=
  points.foldl (fun t p => runPoint f t p R) s

/-- Modelled from the spec: the Cartesian Enumerator — the row-major product
of the ordered per-variable domains, the last declared variable varying
fastest (§4.2; the enumerator source module is absent from the snapshot). -/
def cartesianProduct {β : Type} : List (List β) → List (List β)
  | [] => [[]]
  | d :: ds => d.flatMap (fun v => (cartesianProduct ds).map (fun pt => v :: pt))

/-- Modelled from the spec: a ResultDataset cell — a computed result or an
explicit recorded error marker, never silently dropped (§3, §7). -/
inductive CellValue
  | ok (v : ℚ)
  | err (msg : String)
deriving DecidableEq

/-- Modelled from the spec: per-cell failure isolation — an exception raised
by the user callable for one (point, repeat) is caught and recorded as an
error marker for that cell, and the remaining points keep executing (§4.4,
§7; the executor source module is absent from the snapshot). -/
def runCells (f : ℚ → Except String ℚ) (coords : List ℚ) :
    List (ℚ × CellValue) :=
  coords.map (fun c =>
    (c, match f c with
        | Except.ok v => CellValue.ok v
        | Except.error m => CellValue.err m))

/-- Modelled from the spec: the fail-fast configuration error taxonomy entry
(invalid bounds), the only error that aborts a run (§7). -/
inductive ConfigError
  | invalidBounds
deriving DecidableEq

/-- Modelled from the spec: the run entry point — a `ConfigError` (invalid
bounds) fails fast before any execution; every per-cell failure is isolated
into its cell and never aborts the run (§7). -/
def runChecked (f : ℚ → Except String ℚ) (a b : ℚ) (L : ℕ) :
    Except ConfigError (List (ℚ × CellValue)) :=
  if b < a then Except.error ConfigError.invalidBounds
  else Except.ok (runCells f (levelDomain a b L))

/-- Whether a cell carries a recorded error marker. -/
def isErrCell : CellValue → Bool
  | CellValue.err _ => true
  | CellValue.ok _ => false

/-- Modelled from the spec: the Result Aggregator's per-coordinate aggregate
over the repeat axis — repeat count, sum, sum of squares, minimum and
maximum, from which the supported reductions (mean, standard deviation via
the variance, min, max) are derived (§4.5; the `bencher/results` aggregation
source is absent from the snapshot). -/
structure RepeatStats where
  count : ℕ
  total : ℚ
  sumsq : ℚ
  minv : ℚ
  maxv : ℚ
deriving DecidableEq

/-- The aggregate of a single first repeat. -/
def RepeatStats.single (x : ℚ) : RepeatStats := ⟨1, x, x ^ 2, x, x⟩

/-- Modelled from the spec: incrementally merging one newly executed repeat
into an existing coordinate statistic (§4.5). -/
def RepeatStats.addRepeat (s : RepeatStats) (x : ℚ) : RepeatStats :=
  ⟨s.count + 1, s.total + x, s.sumsq + x ^ 2, min s.minv x, max s.maxv x⟩

/-- Recomputing the aggregate from scratch over the full accumulated repeat
set `x :: xs` (the first repeat is kept separate so the set is never
empty). -/
def statsOfList (x : ℚ) (xs : List ℚ) : RepeatStats :=
  xs.foldl RepeatStats.addRepeat (RepeatStats.single x)

/-- The mean reduction derived from an aggregate. -/
def RepeatStats.mean (s : RepeatStats) : ℚ := s.total / s.count

/-- The variance (squared standard deviation) derived from an aggregate. -/
def RepeatStats.variance (s : RepeatStats) : ℚ :=
  s.sumsq / s.count - (s.total / s.count) ^ 2

/-- The mean of the repeat set `x :: xs`, recomputed from scratch. -/
def listMean (x : ℚ) (xs : List ℚ) : ℚ := (x + xs.sum) / (1 + xs.length)

/-- The variance of the repeat set `x :: xs` (mean squared deviation from
the mean), recomputed from scratch. -/
def listVariance (x : ℚ) (xs : List ℚ) : ℚ :=
  (((x :: xs).map (fun y => (y - listMean x xs) ^ 2)).sum) / (1 + xs.length)

/-- The minimum of the repeat set `x :: xs`, recomputed from scratch. -/
def listMin (x : ℚ) (xs : List ℚ) : ℚ := xs.foldl min x

/-- The maximum of the repeat set `x :: xs`, recomputed from scratch. -/
def listMax (x : ℚ) (xs : List ℚ) : ℚ := xs.foldl max x

/-- Modelled from the spec: the outcome of one cache-storage read — a hit, a
clean miss, or a storage I/O failure (`CacheError`) (§4.3, §7; the
`bencher/caching` source module is absent from the snapshot). -/
inductive ReadOutcome
  | hit (v : ℚ)
  | miss
  | readFail

/-- Modelled from the spec: any storage I/O failure on read degrades to a
miss and is never fatal (§4.3, §7). -/
def degradeRead : ReadOutcome → Option ℚ
  | ReadOutcome.hit v => some v
  | ReadOutcome.miss => none
  | ReadOutcome.readFail => none

/-- Modelled from the spec: resolving one coordinate — a successfully read
cached value is reused, otherwise (miss or read failure) the user callable
is invoked (§4.3, §4.4). -/
def resolveCell (f : ℚ → ℚ) (read : ℚ → ReadOutcome) (c : ℚ) : ℚ :=
  match degradeRead (read c) with
  | some v => v
  | none => f c

/-- Modelled from the spec: a cached run returning the dataset together with
the log of coordinates whose cache write failed; a write failure is logged
and the run proceeds as if caching were disabled for that entry (§4.3,
§7). -/
def runWithCache (f : ℚ → ℚ) (read : ℚ → ReadOutcome) (writeOk : ℚ → Bool)
    (coords : List ℚ) : List (ℚ × ℚ) × List ℚ :=
  (coords.map (fun c => (c, resolveCell f read c)),
   coords.filter (fun c => !writeOk c))

/- ### Helper lemmas on the level discretizer -/

/-- Membership characterisation of `levelDomain` for levels above 1. -/
lemma mem_levelDomain {a b : ℚ} {L : ℕ} (hL : 1 < L) {x : ℚ} :
    x ∈ levelDomain a b L ↔
      ∃ i : ℕ, i < 2 ^ (L - 1) + 1 ∧ a + (b - a) * i / 2 ^ (L - 1) = x := by
  unfold levelDomain
  rw [if_neg (by omega)]
  simp only [List.mem_map, List.mem_range]

/-- Refinement: for `L ≥ 2` every point of `levelDomain a b L` survives into
`levelDomain a b (L+1)` (index `i` becomes index `2*i`). -/
lemma levelDomain_subset_succ (a b : ℚ) (L : ℕ) (hL : 2 ≤ L) :
    levelDomain a b L ⊆ levelDomain a b (L + 1) := by
  intro x hx
  rw [mem_levelDomain (by omega)] at hx
  obtain ⟨i, hi, rfl⟩ := hx
  rw [mem_levelDomain (by omega)]
  refine ⟨2 * i, ?_, ?_⟩
  · have : i ≤ 2 ^ (L - 1) := by omega
    have h2 : 2 * i ≤ 2 * 2 ^ (L - 1) := by omega
    have hpow : 2 * 2 ^ (L - 1) = 2 ^ (L + 1 - 1) := by
      rw [← pow_succ']
      congr 1
      omega
    omega
  · have hpow : (2 : ℚ) ^ (L + 1 - 1) = 2 * 2 ^ (L - 1) := by
      rw [← pow_succ']
      congr 1
      omega
    have hne : (2 : ℚ) ^ (L - 1) ≠ 0 := by positivity
    rw [hpow]
    push_cast
    field_simp
    ring

/-- Indexing characterisation of `levelDomain` for levels above 1. -/
lemma levelDomain_getElem? (a b : ℚ) {L : ℕ} (hL : 1 < L) (i : ℕ) :
    (levelDomain a b L)[i]? =
      if i < 2 ^ (L - 1) + 1 then some (a + (b - a) * (i : ℚ) / 2 ^ (L - 1))
      else none := by
  unfold levelDomain
  rw [if_neg (by omega), List.getElem?_map]
  by_cases h : i < 2 ^ (L - 1) + 1
  · rw [List.getElem?_range h, if_pos h]
    rfl
  · rw [if_neg h, List.getElem?_eq_none_iff.mpr (by simpa using Nat.le_of_not_lt h)]
    rfl

/-- The level-1 midpoint is the middle point of level 2. -/
lemma midpoint_mem_levelDomain_two (a b : ℚ) :
    (a + b) / 2 ∈ levelDomain a b 2 := by
  rw [mem_levelDomain (by omega)]
  refine ⟨1, by norm_num, ?_⟩
  push_cast
  ring

/- ### Helper lemmas on datasets and merging -/

/-- Lookup in an appended dataset prefers the left part. -/
lemma dsLookup_append (l1 l2 : List (ℚ × ℚ)) (c : ℚ) :
    dsLookup (l1 ++ l2) c =
      match dsLookup l1 c with
      | some v => some v
      | none => dsLookup l2 c := by
  unfold dsLookup
  rw [List.find?_append]
  cases l1.find? (fun p => p.1 == c) <;> simp [Option.or]

/-- Lookup in a computed dataset returns the callable's value exactly on the
computed coordinates. -/
lemma dsLookup_computeDS (f : ℚ → ℚ) (coords : List ℚ) (c : ℚ) :
    dsLookup (computeDS f coords) c = if c ∈ coords then some (f c) else none := by
  induction coords with
  | nil => rfl
  | cons c' cs ih =>
    unfold computeDS dsLookup at ih ⊢
    rw [List.map_cons, List.find?_cons]
    by_cases h : c' = c
    · subst h
      simp
    · have hb : ((c', f c').1 == c) = false := by simpa using h
      rw [hb, ih]
      have hcc : ¬c = c' := fun hc => h hc.symm
      simp [List.mem_cons, hcc]

/-- Every coordinate of the level diff is absent from the level-L dataset,
so the merge filter keeps all newly computed cells. -/
lemma filter_computeDS_newLevelCoords (f : ℚ → ℚ) (a b : ℚ) (L : ℕ) :
    (computeDS f (newLevelCoords a b L)).filter
        (fun p => (dsLookup (computeDS f (levelDomain a b L)) p.1).isNone) =
      computeDS f (newLevelCoords a b L) := by
  apply List.filter_eq_self.mpr
  intro p hp
  unfold computeDS at hp
  obtain ⟨c, hc, rfl⟩ := List.mem_map.mp hp
  unfold newLevelCoords at hc
  obtain ⟨-, hnot⟩ := List.mem_filter.mp hc
  have hcL : c ∉ levelDomain a b L := by simpa using hnot
  simp [dsLookup_computeDS, hcL]

/- ### Helper lemmas on the executor and its cache -/

section ExecutorLemmas

variable {P α : Type} [DecidableEq P]

/-- A freshly put entry is found by a subsequent get. -/
lemma cacheGet_cachePut_self (cache : List ((P × ℕ) × α)) (k : P × ℕ) (v : α) :
    cacheGet (cachePut cache k v) k = some v := by
  unfold cacheGet cachePut
  rw [List.find?_cons]
  simp

/-- Evaluating a cell leaves every other fingerprint's cache entry
untouched. -/
lemma cacheGet_evalCell_of_ne (f : P → ℕ → α) (s : ExecState P α) (p : P)
    (r : ℕ) {k : P × ℕ} (hk : k ≠ (p, r)) :
    cacheGet (evalCell f s p r).cache k = cacheGet s.cache k := by
  unfold evalCell
  cases h : cacheGet s.cache (p, r) with
  | some v => rfl
  | none =>
    show cacheGet (cachePut s.cache (p, r) (f p r)) k = cacheGet s.cache k
    unfold cacheGet cachePut
    rw [List.find?_cons]
    have : (decide (((p, r), f p r).1 = k)) = false := by
      simp only [decide_eq_false_iff_not]
      exact fun h' => hk h'.symm
    rw [this]

/-- After evaluating a cell, that cell's fingerprint is cached. -/
lemma cacheGet_evalCell_self (f : P → ℕ → α) (s : ExecState P α) (p : P)
    (r : ℕ) : (cacheGet (evalCell f s p r).cache (p, r)).isSome := by
  unfold evalCell
  cases h : cacheGet s.cache (p, r) with
  | some v => simp [h]
  | none =>
    show (cacheGet (cachePut s.cache (p, r) (f p r)) (p, r)).isSome
    rw [cacheGet_cachePut_self]
    rfl

/-- Evaluating a cell never evicts a cached fingerprint. -/
lemma cacheGet_evalCell_isSome_mono (f : P → ℕ → α) (s : ExecState P α)
    (p : P) (r : ℕ) {k : P × ℕ} (hs : (cacheGet s.cache k).isSome) :
    (cacheGet (evalCell f s p r).cache k).isSome := by
  by_cases hk : k = (p, r)
  · subst hk
    exact cacheGet_evalCell_self f s p r
  · rw [cacheGet_evalCell_of_ne f s p r hk]
    exact hs

/-- A cache hit leaves the executor state unchanged. -/
lemma evalCell_of_hit (f : P → ℕ → α) (s : ExecState P α) (p : P) (r : ℕ)
    (h : (cacheGet s.cache (p, r)).isSome) : evalCell f s p r = s := by
  obtain ⟨v, hv⟩ := Option.isSome_iff_exists.mp h
  unfold evalCell
  rw [hv]

/-- A cache miss performs exactly one invocation and caches the result. -/
lemma evalCell_of_miss (f : P → ℕ → α) (s : ExecState P α) (p : P) (r : ℕ)
    (h : cacheGet s.cache (p, r) = none) :
    evalCell f s p r =
      { cache := cachePut s.cache (p, r) (f p r),
        invocations := s.invocations + 1 } := by
  unfold evalCell
  rw [h]

/-- `runPoint` is `runRange` starting at repeat index 0. -/
lemma runPoint_eq_runRange (f : P → ℕ → α) (s : ExecState P α) (p : P)
    (R : ℕ) : runPoint f s p R = runRange f s p 0 R := by
  unfold runPoint runRange
  rw [List.range_eq_range']

/-- A repeat range splits into two consecutive stretches. -/
lemma runRange_add (f : P → ℕ → α) (s : ExecState P α) (p : P)
    (start m n : ℕ) :
    runRange f s p start (m + n) = runRange f (runRange f s p start m) p (start + m) n := by
  unfold runRange
  rw [Nat.add_comm m n, ← List.range'_append start m n 1, List.foldl_append,
    Nat.one_mul]

/-- Fingerprints outside a repeat stretch (other point, or repeat index at
most `start`, or beyond `start + len`) are untouched by `runRange`. -/
lemma cacheGet_runRange_of_ne (f : P → ℕ → α) (p : P) :
    ∀ (len start : ℕ) (s : ExecState P α) (k : P × ℕ),
      (k.1 ≠ p ∨ k.2 ≤ start ∨ start + len < k.2) →
      cacheGet (runRange f s p start len).cache k = cacheGet s.cache k := by
  intro len
  induction len with
  | zero => intro start s k hk; rfl
  | succ n ih =>
    intro start s k hk
    have hstep : runRange f s p start (n + 1) =
        runRange f (evalCell f s p (start + 1)) p (start + 1) n := by
      unfold runRange
      rfl
    have hk' : k.1 ≠ p ∨ k.2 ≤ start + 1 ∨ start + 1 + n < k.2 := by
      rcases hk with h | h | h
      · exact Or.inl h
      · exact Or.inr (Or.inl (by omega))
      · exact Or.inr (Or.inr (by omega))
    rw [hstep, ih (start + 1) _ k hk']
    apply cacheGet_evalCell_of_ne
    intro he
    subst he
    rcases hk with h | h | h
    · exact h rfl
    · simp at h
    · simp at h

/-- If all repeats `1 … len` of a stretch are already cached, running the
stretch changes nothing. -/
lemma runRange_of_cached (f : P → ℕ → α) (p : P) :
    ∀ (len start : ℕ) (s : ExecState P α),
      (∀ r, start < r → r ≤ start + len → (cacheGet s.cache (p, r)).isSome) →
      runRange f s p start len = s := by
  intro len
  induction len with
  | zero => intro start s _; rfl
  | succ n ih =>
    intro start s h
    have hstep : runRange f s p start (n + 1) =
        runRange f (evalCell f s p (start + 1)) p (start + 1) n := by
      unfold runRange
      rfl
    rw [hstep, evalCell_of_hit f s p (start + 1) (h (start + 1) (by omega) (by omega))]
    exact ih (start + 1) s (fun r h1 h2 => h r (by omega) (by omega))

/-- If no repeat of a stretch is cached yet, running the stretch invokes the
callable exactly once per repeat. -/
lemma runRange_of_fresh (f : P → ℕ → α) (p : P) :
    ∀ (len start : ℕ) (s : ExecState P α),
      (∀ r, start < r → r ≤ start + len → cacheGet s.cache (p, r) = none) →
      (runRange f s p start len).invocations = s.invocations + len := by
  intro len
  induction len with
  | zero => intro start s _; rfl
  | succ n ih =>
    intro start s h
    have hstep : runRange f s p start (n + 1) =
        runRange f (evalCell f s p (start + 1)) p (start + 1) n := by
      unfold runRange
      rfl
    have hmiss : cacheGet s.cache (p, start + 1) = none :=
      h (start + 1) (by omega) (by omega)
    rw [hstep, ih (start + 1) _ ?_, evalCell_of_miss f s p (start + 1) hmiss]
    · show s.invocations + 1 + n = s.invocations + (n + 1)
      omega
    · intro r h1 h2
      rw [cacheGet_evalCell_of_ne f s p (start + 1)
        (by intro he; rw [Prod.ext_iff] at he; omega)]
      exact h r (by omega) (by omega)

/-- After `runRange`, every repeat of the stretch is cached. -/
lemma cacheGet_runRange_isSome (f : P → ℕ → α) (p : P) :
    ∀ (len start : ℕ) (s : ExecState P α) (r : ℕ),
      start < r → r ≤ start + len →
      (cacheGet (runRange f s p start len).cache (p, r)).isSome := by
  intro len
  induction len with
  | zero => intro start s r h1 h2; omega
  | succ n ih =>
    intro start s r h1 h2
    have hstep : runRange f s p start (n + 1) =
        runRange f (evalCell f s p (start + 1)) p (start + 1) n := by
      unfold runRange
      rfl
    rw [hstep]
    by_cases hr : r = start + 1
    · subst hr
      rw [cacheGet_runRange_of_ne f p n (start + 1) _ _ (by right; left; omega)]
      exact cacheGet_evalCell_self f s p (start + 1)
    · exact ih (start + 1) _ r (by omega) (by omega)

/-- `runRange` never evicts a cached fingerprint. -/
lemma cacheGet_runRange_isSome_mono (f : P → ℕ → α) (p : P) :
    ∀ (len start : ℕ) (s : ExecState P α) (k : P × ℕ),
      (cacheGet s.cache k).isSome →
      (cacheGet (runRange f s p start len).cache k).isSome := by
  intro len
  induction len with
  | zero => intro start s k h; exact h
  | succ n ih =>
    intro start s k h
    have hstep : runRange f s p start (n + 1) =
        runRange f (evalCell f s p (start + 1)) p (start + 1) n := by
      unfold runRange
      rfl
    rw [hstep]
    exact ih (start + 1) _ k (cacheGet_evalCell_isSome_mono f s p (start + 1) h)

/-- If no repeat of a stretch is cached yet, running it adds exactly one
cache entry per repeat. -/
lemma runRange_cache_length_of_fresh (f : P → ℕ → α) (p : P) :
    ∀ (len start : ℕ) (s : ExecState P α),
      (∀ r, start < r → r ≤ start + len → cacheGet s.cache (p, r) = none) →
      (runRange f s p start len).cache.length = s.cache.length + len := by
  intro len
  induction len with
  | zero => intro start s _; rfl
  | succ n ih =>
    intro start s h
    have hstep : runRange f s p start (n + 1) =
        runRange f (evalCell f s p (start + 1)) p (start + 1) n := by
      unfold runRange
      rfl
    have hmiss : cacheGet s.cache (p, start + 1) = none :=
      h (start + 1) (by omega) (by omega)
    rw [hstep, ih (start + 1) _ ?_, evalCell_of_miss f s p (start + 1) hmiss]
    · show (cachePut s.cache (p, start + 1) (f p (start + 1))).length + n =
        s.cache.length + (n + 1)
      unfold cachePut
      rw [List.length_cons]
      omega
    · intro r h1 h2
      rw [cacheGet_evalCell_of_ne f s p (start + 1)
        (by intro he; rw [Prod.ext_iff] at he; omega)]
      exact h r (by omega) (by omega)

/-- `runSweep` on a cons of points. -/
lemma runSweep_cons (f : P → ℕ → α) (s : ExecState P α) (q : P)
    (rest : List P) (R : ℕ) :
    runSweep f s (q :: rest) R = runSweep f (runPoint f s q R) rest R := rfl

/-- `runSweep` never evicts a cached fingerprint. -/
lemma cacheGet_runSweep_isSome_mono (f : P → ℕ → α) (R : ℕ) :
    ∀ (points : List P) (s : ExecState P α) (k : P × ℕ),
      (cacheGet s.cache k).isSome →
      (cacheGet (runSweep f s points R).cache k).isSome := by
  intro points
  induction points with
  | nil => intro s k h; exact h
  | cons q rest ih =>
    intro s k h
    rw [runSweep_cons]
    apply ih
    rw [runPoint_eq_runRange]
    exact cacheGet_runRange_isSome_mono f q R 0 s k h

/-- After a sweep, every (point, repeat) fingerprint of the sweep is
cached. -/
lemma cacheGet_runSweep_isSome (f : P → ℕ → α) (R : ℕ) :
    ∀ (points : List P) (s : ExecState P α) (p : P), p ∈ points →
      ∀ r, 1 ≤ r → r ≤ R →
        (cacheGet (runSweep f s points R).cache (p, r)).isSome := by
  intro points
  induction points with
  | nil =>
    intro s p hp
    cases hp
  | cons q rest ih =>
    intro s p hp r h1 hr
    rw [runSweep_cons]
    rcases List.mem_cons.mp hp with rfl | hp'
    · apply cacheGet_runSweep_isSome_mono
      rw [runPoint_eq_runRange]
      exact cacheGet_runRange_isSome f p R 0 s r (by omega) (by omega)
    · exact ih _ p hp' r h1 hr

/-- A sweep whose fingerprints are all cached already is a no-op. -/
lemma runSweep_of_cached (f : P → ℕ → α) (R : ℕ) :
    ∀ (points : List P) (s : ExecState P α),
      (∀ p ∈ points, ∀ r, 1 ≤ r → r ≤ R → (cacheGet s.cache (p, r)).isSome) →
      runSweep f s points R = s := by
  intro points
  induction points with
  | nil => intro s _; rfl
  | cons q rest ih =>
    intro s h
    rw [runSweep_cons]
    have hq : runPoint f s q R = s := by
      rw [runPoint_eq_runRange]
      exact runRange_of_cached f q R 0 s
        (fun r h1 h2 => h q (List.mem_cons_self q rest) r (by omega) (by omega))
    rw [hq]
    exact ih s (fun p hp => h p (List.mem_cons_of_mem q hp))

end ExecutorLemmas

/- ### Helper lemmas on the Cartesian enumerator -/

section CartesianLemmas

variable {β : Type}

/-- Length of a flatMap is the sum of the pieces' lengths. -/
lemma length_flatMap_pieces (l : List β) (g : β → List (List β)) :
    (l.flatMap g).length = (l.map (fun a => (g a).length)).sum := by
  induction l with
  | nil => rfl
  | cons a l ih => simp [List.flatMap_cons, ih]

/-- Sum of a constant over a list. -/
lemma sum_map_const_nat (l : List β) (c : ℕ) :
    (l.map (fun _ => c)).sum = l.length * c := by
  induction l with
  | nil => simp
  | cons a l ih =>
    simp [ih]
    ring

/-- The enumerator yields exactly the product of the domain sizes. -/
lemma cartesianProduct_length : ∀ ds : List (List β),
    (cartesianProduct ds).length = (ds.map List.length).prod := by
  intro ds
  induction ds with
  | nil => rfl
  | cons d ds ih =>
    show (d.flatMap (fun v => (cartesianProduct ds).map (fun pt => v :: pt))).length = _
    rw [length_flatMap_pieces]
    simp only [List.length_map, List.map_cons, List.prod_cons]
    rw [sum_map_const_nat, ih]

/-- With duplicate-free domains the enumerated points are pairwise
distinct. -/
lemma cartesianProduct_nodup : ∀ ds : List (List β), (∀ d ∈ ds, d.Nodup) →
    (cartesianProduct ds).Nodup := by
  intro ds
  induction ds with
  | nil =>
    intro _
    simp [cartesianProduct]
  | cons d ds ih =>
    intro h
    show (d.flatMap (fun v => (cartesianProduct ds).map (fun pt => v :: pt))).Nodup
    rw [List.nodup_flatMap]
    constructor
    · intro v hv
      exact (ih (fun e he => h e (List.mem_cons_of_mem d he))).map
        (fun pt1 pt2 hpt => by injection hpt)
    · have hd : d.Nodup := h d (List.mem_cons_self d ds)
      apply List.Pairwise.imp ?_ hd
      intro v w hvw x hx1 hx2
      obtain ⟨pt1, -, rfl⟩ := List.mem_map.mp hx1
      obtain ⟨pt2, -, heq⟩ := List.mem_map.mp hx2
      injection heq with h1 h2
      exact hvw h1.symm

/-- Row-major indexing: in `cartesianProduct (d :: ds)` the block of the
`i`-th value of the first (outermost, slowest-varying) domain has stride
`(cartesianProduct ds).length`, so later-declared variables vary faster. -/
lemma cartesianProduct_cons_getElem? (ds : List (List β)) :
    ∀ (d : List β) (i j : ℕ), j < (cartesianProduct ds).length →
      (cartesianProduct (d :: ds))[i * (cartesianProduct ds).length + j]? =
        (d[i]?).bind
          (fun v => ((cartesianProduct ds)[j]?).map (fun pt => v :: pt)) := by
  intro d
  induction d with
  | nil =>
    intro i j hj
    simp [cartesianProduct]
  | cons v d ih =>
    intro i j hj
    have hsplit : cartesianProduct ((v :: d) :: ds) =
        ((cartesianProduct ds).map (fun pt => v :: pt)) ++
          cartesianProduct (d :: ds) := rfl
    rw [hsplit]
    cases i with
    | zero =>
      rw [Nat.zero_mul, Nat.zero_add,
        List.getElem?_append_left (by simpa using hj)]
      simp [List.getElem?_map]
    | succ i =>
      have hlen : ((cartesianProduct ds).map (fun pt => v :: pt)).length =
          (cartesianProduct ds).length := List.length_map _ _
      have hmul : (i + 1) * (cartesianProduct ds).length =
          i * (cartesianProduct ds).length + (cartesianProduct ds).length := by
        ring
      rw [List.getElem?_append_right (by rw [hlen]; omega)]
      have harith : (i + 1) * (cartesianProduct ds).length + j -
          ((cartesianProduct ds).map (fun pt => v :: pt)).length =
          i * (cartesianProduct ds).length + j := by
        rw [hlen]
        omega
      rw [harith, ih i j hj]
      simp

end CartesianLemmas

/- ### Helper lemmas on repeat statistics -/

/-- Folding `addRepeat` accumulates count, sum, sum of squares, min and
max. -/
lemma foldl_addRepeat_spec : ∀ (xs : List ℚ) (s : RepeatStats),
    xs.foldl RepeatStats.addRepeat s =
      ⟨s.count + xs.length, s.total + xs.sum,
        s.sumsq + (xs.map (fun y => y ^ 2)).sum,
        xs.foldl min s.minv, xs.foldl max s.maxv⟩ := by
  intro xs
  induction xs with
  | nil =>
    intro s
    show s = _
    cases s
    simp
  | cons y ys ih =>
    intro s
    show ys.foldl RepeatStats.addRepeat (s.addRepeat y) = _
    rw [ih]
    simp only [RepeatStats.addRepeat, RepeatStats.mk.injEq, List.length_cons,
      List.sum_cons, List.map_cons, List.foldl_cons]
    refine ⟨?_, ?_, ?_, ?_, ?_⟩ <;> first | trivial | ring

/-- The from-scratch aggregate of the repeat set `x :: xs` in closed form. -/
lemma statsOfList_spec (x : ℚ) (xs : List ℚ) :
    statsOfList x xs =
      ⟨1 + xs.length, x + xs.sum, x ^ 2 + (xs.map (fun y => y ^ 2)).sum,
        listMin x xs, listMax x xs⟩ := by
  unfold statsOfList RepeatStats.single listMin listMax
  rw [foldl_addRepeat_spec]

/-- Recomputing from scratch over the extended repeat set equals the
incremental merge. -/
lemma statsOfList_append (x y : ℚ) (xs : List ℚ) :
    statsOfList x (xs ++ [y]) = (statsOfList x xs).addRepeat y := by
  unfold statsOfList
  rw [List.foldl_append]
  rfl

/-- Expansion of a sum of squared deviations. -/
lemma sum_sq_dev (μ : ℚ) : ∀ l : List ℚ,
    (l.map (fun y => (y - μ) ^ 2)).sum =
      (l.map (fun y => y ^ 2)).sum - 2 * μ * l.sum + l.length * μ ^ 2 := by
  intro l
  induction l with
  | nil => simp
  | cons y ys ih =>
    simp only [List.map_cons, List.sum_cons, List.length_cons, ih]
    push_cast
    ring

/-- The mean derived from the aggregate equals the from-scratch mean. -/
lemma mean_statsOfList (x : ℚ) (xs : List ℚ) :
    (statsOfList x xs).mean = listMean x xs := by
  rw [statsOfList_spec]
  unfold RepeatStats.mean listMean
  push_cast
  ring_nf

/-- The variance derived from the aggregate (mean of squares minus squared
mean) equals the from-scratch mean squared deviation. -/
lemma variance_statsOfList (x : ℚ) (xs : List ℚ) :
    (statsOfList x xs).variance = listVariance x xs := by
  have hn : (1 : ℚ) + (xs.length : ℚ) ≠ 0 := by positivity
  rw [statsOfList_spec]
  unfold RepeatStats.variance listVariance
  rw [sum_sq_dev (listMean x xs) (x :: xs)]
  unfold listMean
  simp only [List.sum_cons, List.map_cons, List.length_cons]
  push_cast
  field_simp
  ring

end Bencher

open Bencher

/-- C1: for every continuous variable with bounds `[a,b]` and every level
`L ≥ 2`, the SweepSpace domain satisfies `domain(L) ⊆ domain(L+1)`, and the
single point of `domain(1)` (the midpoint `(a+b)/2`) is an element of
`domain(2)`. -/
theorem C1_level_refinement (a b : ℚ) (L : ℕ) (hL : 2 ≤ L) :
    levelDomain a b L ⊆ levelDomain a b (L + 1) ∧
      levelDomain a b 1 = [(a + b) / 2] ∧
      (a + b) / 2 ∈ levelDomain a b 2 := by
  refine ⟨levelDomain_subset_succ a b L hL, rfl, midpoint_mem_levelDomain_two a b⟩

/-- Witness for C1 at `a = 0`, `b = 10`, `L = 2`. -/
theorem C1_level_refinement_witness :
    levelDomain 0 10 2 ⊆ levelDomain 0 10 3 ∧
      levelDomain 0 10 1 = [(0 + 10) / 2] ∧
      (0 + 10 : ℚ) / 2 ∈ levelDomain 0 10 2 :=
  C1_level_refinement 0 10 2 (by norm_num)

/-- C2: for a continuous variable with bounds `[a,b]`, `domain(1)` is the
single point `(a+b)/2`, and for every level `L > 1` `domain(L)` is exactly the
`2^(L-1)+1` evenly spaced points spanning `[a,b]` inclusive of both endpoints
(first point `a`, last point `b`, constant gap `(b-a)/2^(L-1)`); in particular
for `x ∈ [0,10]`, level 2 yields `{0,5,10}` and level 3 yields
`{0,2.5,5,7.5,10}`. -/
theorem C2_domain_points (a b : ℚ) (L : ℕ) (hL : 1 < L) :
    levelDomain a b 1 = [(a + b) / 2] ∧
    (levelDomain a b L).length = 2 ^ (L - 1) + 1 ∧
    (levelDomain a b L)[0]? = some a ∧
    (levelDomain a b L)[2 ^ (L - 1)]? = some b ∧
    (∀ i, i < 2 ^ (L - 1) →
      ∃ x y, (levelDomain a b L)[i]? = some x ∧
        (levelDomain a b L)[i + 1]? = some y ∧
        y - x = (b - a) / 2 ^ (L - 1)) ∧
    levelDomain 0 10 2 = [0, 5, 10] ∧
    levelDomain 0 10 3 = [0, 5/2, 5, 15/2, 10] := by
  have hne : (2 : ℚ) ^ (L - 1) ≠ 0 := by positivity
  refine ⟨rfl, ?_, ?_, ?_, ?_,
    by norm_num [levelDomain, List.range_succ],
    by norm_num [levelDomain, List.range_succ]⟩
  · unfold levelDomain
    rw [if_neg (by omega)]
    simp
  · rw [levelDomain_getElem? a b hL, if_pos (Nat.succ_pos _)]
    norm_num
  · rw [levelDomain_getElem? a b hL, if_pos (Nat.lt_succ_self _)]
    push_cast
    field_simp
  · intro i hi
    refine ⟨a + (b - a) * (i : ℚ) / 2 ^ (L - 1),
      a + (b - a) * ((i : ℚ) + 1) / 2 ^ (L - 1), ?_, ?_, ?_⟩
    · rw [levelDomain_getElem? a b hL, if_pos (Nat.lt_succ_of_lt hi)]
    · rw [levelDomain_getElem? a b hL, if_pos (Nat.succ_lt_succ hi)]
      push_cast
      ring_nf
    · field_simp
      ring

/-- Witness for C2 at `a = 0`, `b = 10`, `L = 2`. -/
theorem C2_domain_points_witness :
    levelDomain 0 10 1 = [(0 + 10) / 2] ∧
    (levelDomain 0 10 2).length = 2 ^ (2 - 1) + 1 ∧
    (levelDomain 0 10 2)[0]? = some 0 ∧
    (levelDomain 0 10 2)[2 ^ (2 - 1)]? = some 10 ∧
    (∀ i, i < 2 ^ (2 - 1) →
      ∃ x y, (levelDomain 0 10 2)[i]? = some x ∧
        (levelDomain 0 10 2)[i + 1]? = some y ∧
        y - x = (10 - 0) / 2 ^ (2 - 1)) ∧
    levelDomain 0 10 2 = [0, 5, 10] ∧
    levelDomain 0 10 3 = [0, 5/2, 5, 15/2, 10] :=
  C2_domain_points 0 10 2 (by norm_num)

/-- C3: merging a level-L dataset with newly computed points keeps every
already-present coordinate's value identical, and for a deterministic
callable, computing at level L and extending to level `L+1` yields at every
coordinate exactly the value of computing directly at level `L+1`. -/
theorem C3_level_merge_invariant (f : ℚ → ℚ) (a b : ℚ) (L : ℕ) (hL : 2 ≤ L)
    (ds new : List (ℚ × ℚ)) (c : ℚ) :
    (∀ v, dsLookup ds c = some v → dsLookup (dsMerge ds new) c = some v) ∧
    dsLookup (extendToNextLevel f a b L (computeDS f (levelDomain a b L))) c =
      dsLookup (computeDS f (levelDomain a b (L + 1))) c := by
  constructor
  · intro v hv
    unfold dsMerge
    rw [dsLookup_append, hv]
  · unfold extendToNextLevel dsMerge
    rw [filter_computeDS_newLevelCoords, dsLookup_append]
    rw [dsLookup_computeDS, dsLookup_computeDS, dsLookup_computeDS]
    by_cases hcL : c ∈ levelDomain a b L
    · rw [if_pos hcL, if_pos (levelDomain_subset_succ a b L hL hcL)]
    · rw [if_neg hcL]
      by_cases hcL1 : c ∈ levelDomain a b (L + 1)
      · have hmem : c ∈ newLevelCoords a b L := by
          unfold newLevelCoords
          refine List.mem_filter.mpr ⟨hcL1, ?_⟩
          simpa using hcL
        rw [if_pos hmem, if_pos hcL1]
      · have hmem : c ∉ newLevelCoords a b L := by
          unfold newLevelCoords
          intro hmem
          exact hcL1 (List.mem_filter.mp hmem).1
        rw [if_neg hmem, if_neg hcL1]

/-- Witness for C3 at `f x = 2x`, bounds `[0,10]`, `L = 2`, the existing
cell `(5, 10)` and coordinate `5`. -/
theorem C3_level_merge_invariant_witness :
    (∀ v, dsLookup [(5, 10)] 5 = some v →
      dsLookup (dsMerge [(5, 10)] [(5, 99)]) 5 = some v) ∧
    dsLookup
        (extendToNextLevel (fun x => 2 * x) 0 10 2
          (computeDS (fun x => 2 * x) (levelDomain 0 10 2))) 5 =
      dsLookup (computeDS (fun x => 2 * x) (levelDomain 0 10 3)) 5 :=
  C3_level_merge_invariant (fun x => 2 * x) 0 10 2 (by norm_num) [(5, 10)] [(5, 99)] 5

/-- C4: for a ParameterPoint whose repeats `1 … R` are already cached (and no
higher repeat is), a run with `R' ≥ R` repeats invokes the user callable
exactly `R' − R` times, and the cached repeats' entries are reused
unchanged. -/
theorem C4_repeat_cache_reuse {P α : Type} [DecidableEq P] (f : P → ℕ → α)
    (s : ExecState P α) (p : P) (R R' : ℕ) (hRR' : R ≤ R')
    (hcached : ∀ r, r ≤ R → 1 ≤ r → (cacheGet s.cache (p, r)).isSome)
    (hfresh : ∀ r, r ≤ R' → R < r → cacheGet s.cache (p, r) = none) :
    (runPoint f s p R').invocations = s.invocations + (R' - R) ∧
    ∀ r, r ≤ R → 1 ≤ r →
      cacheGet (runPoint f s p R').cache (p, r) = cacheGet s.cache (p, r) := by
  obtain ⟨d, rfl⟩ : ∃ d, R' = R + d := ⟨R' - R, by omega⟩
  have hcachedRun : runRange f s p 0 R = s :=
    runRange_of_cached f p R 0 s (fun r h1 h2 => hcached r (by omega) (by omega))
  have hsplit : runPoint f s p (R + d) = runRange f s p R d := by
    rw [runPoint_eq_runRange, runRange_add f s p 0 R d, hcachedRun, Nat.zero_add]
  constructor
  · rw [hsplit, runRange_of_fresh f p d R s
      (fun r h1 h2 => hfresh r (by omega) (by omega))]
    omega
  · intro r hr h1
    rw [hsplit, cacheGet_runRange_of_ne f p d R s (p, r) (by right; left; omega)]

/-- Witness for C4: one point `0` with repeats 1 and 2 cached; raising the
repeat count from 2 to 5 performs exactly 3 new invocations. -/
theorem C4_repeat_cache_reuse_witness :
    (runPoint (fun p r => p + r) ⟨[((0, 1), 10), ((0, 2), 20)], 0⟩ 0 5).invocations
        = (0 : ℕ) + (5 - 2) ∧
    ∀ r, r ≤ 2 → 1 ≤ r →
      cacheGet (runPoint (fun p r => p + r)
          (⟨[((0, 1), 10), ((0, 2), 20)], 0⟩ : ExecState ℕ ℕ) 0 5).cache (0, r) =
        cacheGet (⟨[((0, 1), 10), ((0, 2), 20)], 0⟩ : ExecState ℕ ℕ).cache (0, r) :=
  C4_repeat_cache_reuse (fun p r => p + r) ⟨[((0, 1), 10), ((0, 2), 20)], 0⟩ 0 2 5
    (by norm_num) (by decide) (by decide)

/-- C7: `put(f, r)` followed by `get(f)` returns `r`; and a second run with
an unchanged RunConfig and function fingerprint (the same points, repeats
and callable, starting from the first run's cache) performs zero additional
invocations of the user callable — the executor state does not change at
all. -/
theorem C7_cache_round_trip {P α : Type} [DecidableEq P]
    (cache : List ((P × ℕ) × α)) (k : P × ℕ) (v : α)
    (f : P → ℕ → α) (points : List P) (R : ℕ) :
    cacheGet (cachePut cache k v) k = some v ∧
    runSweep f (runSweep f ⟨[], 0⟩ points R) points R =
      runSweep f ⟨[], 0⟩ points R ∧
    (runSweep f (runSweep f ⟨[], 0⟩ points R) points R).invocations =
      (runSweep f ⟨[], 0⟩ points R).invocations := by
  have h2 : runSweep f (runSweep f ⟨[], 0⟩ points R) points R =
      runSweep f ⟨[], 0⟩ points R :=
    runSweep_of_cached f R points _
      (fun p hp r h1 hr => cacheGet_runSweep_isSome f R points ⟨[], 0⟩ p hp r h1 hr)
  exact ⟨cacheGet_cachePut_self cache k v, h2, by rw [h2]⟩

/-- C10: a ParametrizedSweep declaring zero input variables enumerates
exactly one ParameterPoint (the empty mapping, the empty product of
domains); a fresh run with `R` repeats invokes the user callable exactly `R`
times and stores exactly one cell (holding the result-variable mapping) per
repeat index `1 … R` of that single point. -/
theorem C10_zero_input_sweep {α : Type} (f : List ℚ → ℕ → α) (R : ℕ) :
    cartesianProduct ([] : List (List ℚ)) = [[]] ∧
    (runSweep f ⟨[], 0⟩ (cartesianProduct ([] : List (List ℚ))) R).invocations = R ∧
    (runSweep f ⟨[], 0⟩ (cartesianProduct ([] : List (List ℚ))) R).cache.length = R ∧
    ∀ k : List ℚ × ℕ,
      (cacheGet (runSweep f ⟨[], 0⟩
          (cartesianProduct ([] : List (List ℚ))) R).cache k).isSome ↔
        (k.1 = [] ∧ 1 ≤ k.2 ∧ k.2 ≤ R) := by
  have hrun : runSweep f ⟨[], 0⟩ (cartesianProduct ([] : List (List ℚ))) R =
      runRange f ⟨[], 0⟩ [] 0 R := by
    show runSweep f ⟨[], 0⟩ [[]] R = _
    rw [runSweep_cons, runPoint_eq_runRange]
    rfl
  have hfresh : ∀ r, 0 < r → r ≤ 0 + R →
      cacheGet (⟨[], 0⟩ : ExecState (List ℚ) α).cache ([], r) = none :=
    fun r _ _ => rfl
  refine ⟨rfl, ?_, ?_, ?_⟩
  · rw [hrun, runRange_of_fresh f [] R 0 ⟨[], 0⟩ hfresh]
    show 0 + R = R
    omega
  · rw [hrun, runRange_cache_length_of_fresh f [] R 0 ⟨[], 0⟩ hfresh]
    show 0 + R = R
    omega
  · intro k
    rw [hrun]
    constructor
    · intro hk
      by_contra hneg
      have hout : k.1 ≠ ([] : List ℚ) ∨ k.2 ≤ 0 ∨ 0 + R < k.2 := by
        by_cases h1 : k.1 = ([] : List ℚ)
        · right
          rcases Nat.lt_or_ge k.2 1 with h2 | h2
          · left
            omega
          · right
            rcases Nat.lt_or_ge R k.2 with h3 | h3
            · omega
            · exact absurd ⟨h1, h2, h3⟩ hneg
        · left
          exact h1
      rw [cacheGet_runRange_of_ne f [] R 0 ⟨[], 0⟩ k hout] at hk
      exact absurd hk (by rw [show cacheGet
        (⟨[], 0⟩ : ExecState (List ℚ) α).cache k = none from rfl]; simp)
    · rintro ⟨h1, h2, h3⟩
      have : k = ([], k.2) := by
        rw [Prod.ext_iff]
        exact ⟨h1, rfl⟩
      rw [this]
      exact cacheGet_runRange_isSome f [] R 0 ⟨[], 0⟩ k.2 (by omega) (by omega)

/-- C5: the Cartesian Enumerator yields exactly the product `d1 * … * dn`
pairwise-distinct ParameterPoints, in deterministic row-major order (the
first declared variable has stride equal to the product of the later
domains, so the last declared variable varies fastest); as a pure function
it has no side effects and always yields this same sequence. -/
theorem C5_cartesian_enumeration {β : Type} (ds : List (List β))
    (d0 : List β) (i j : ℕ) (hnodup : ∀ d ∈ ds, d.Nodup)
    (hj : j < (cartesianProduct ds).length) :
    (cartesianProduct ds).length = (ds.map List.length).prod ∧
    (cartesianProduct ds).Nodup ∧
    (cartesianProduct (d0 :: ds))[i * (cartesianProduct ds).length + j]? =
      (d0[i]?).bind
        (fun v => ((cartesianProduct ds)[j]?).map (fun pt => v :: pt)) ∧
    cartesianProduct ([[1, 2], [10, 20, 30]] : List (List ℕ)) =
      [[1, 10], [1, 20], [1, 30], [2, 10], [2, 20], [2, 30]] :=
  ⟨cartesianProduct_length ds, cartesianProduct_nodup ds hnodup,
    cartesianProduct_cons_getElem? ds d0 i j hj, rfl⟩

/-- Witness for C5 at the domains `[10, 20, 30]` under `[1, 2]`, block index
`i = 1`, offset `j = 2`. -/
theorem C5_cartesian_enumeration_witness :
    (cartesianProduct [[10, 20, 30]]).length =
      (([[10, 20, 30]] : List (List ℕ)).map List.length).prod ∧
    (cartesianProduct ([[10, 20, 30]] : List (List ℕ))).Nodup ∧
    (cartesianProduct ([[1, 2], [10, 20, 30]] :
        List (List ℕ)))[1 * (cartesianProduct [[10, 20, 30]]).length + 2]? =
      (([1, 2] : List ℕ)[1]?).bind
        (fun v => ((cartesianProduct ([[10, 20, 30]] :
          List (List ℕ)))[2]?).map (fun pt => v :: pt)) ∧
    cartesianProduct ([[1, 2], [10, 20, 30]] : List (List ℕ)) =
      [[1, 10], [1, 20], [1, 30], [2, 10], [2, 20], [2, 30]] :=
  C5_cartesian_enumeration [[10, 20, 30]] [1, 2] 1 2 (by decide) (by decide)

/-- C6: an exception from the user callable is recorded as an error marker
for its cell while every remaining point still executes (one cell per
coordinate, none dropped), and only a `ConfigError` aborts the run; for a
callable raising only at `x = 5`, the level-2 run over `[0,10]` completes
without raising, producing 2 valid cells and 1 error-marked cell. -/
theorem C6_failure_isolation (f : ℚ → Except String ℚ) (a b : ℚ) (L : ℕ)
    (hab : a ≤ b) :
    (runCells f (levelDomain a b L)).length = (levelDomain a b L).length ∧
    (∀ c ∈ levelDomain a b L, ∃ cell, (c, cell) ∈ runCells f (levelDomain a b L)) ∧
    (∃ cells, runChecked f a b L = Except.ok cells) ∧
    runChecked (fun x => if x = 5 then Except.error "boom" else Except.ok (2 * x))
        0 10 2 =
      Except.ok [(0, CellValue.ok 0), (5, CellValue.err "boom"),
        (10, CellValue.ok 20)] ∧
    ((runCells (fun x => if x = 5 then Except.error "boom" else Except.ok (2 * x))
        (levelDomain 0 10 2)).filter (fun cell => isErrCell cell.2)).length = 1 ∧
    ((runCells (fun x => if x = 5 then Except.error "boom" else Except.ok (2 * x))
        (levelDomain 0 10 2)).filter (fun cell => !isErrCell cell.2)).length = 2 := by
  have hdom : levelDomain 0 10 2 = [0, 5, 10] := by
    norm_num [levelDomain, List.range_succ]
  have hcells : runCells (fun x => if x = 5 then Except.error "boom"
      else Except.ok (2 * x)) (levelDomain 0 10 2) =
      [(0, CellValue.ok 0), (5, CellValue.err "boom"), (10, CellValue.ok 20)] := by
    rw [hdom]
    norm_num [runCells]
  refine ⟨List.length_map _ _, ?_, ?_, ?_, ?_, ?_⟩
  · intro c hc
    exact ⟨_, List.mem_map.mpr ⟨c, hc, rfl⟩⟩
  · refine ⟨runCells f (levelDomain a b L), ?_⟩
    unfold runChecked
    rw [if_neg (not_lt.mpr hab)]
  · unfold runChecked
    rw [if_neg (by norm_num), hcells]
  · rw [hcells]
    rfl
  · rw [hcells]
    rfl

/-- Witness for C6 at `a = 0`, `b = 10`, `L = 2` and the callable raising
only at `x = 5`. -/
theorem C6_failure_isolation_witness :
    (runCells (fun x => if x = 5 then Except.error "boom" else Except.ok (2 * x))
      (levelDomain 0 10 2)).length = (levelDomain 0 10 2).length ∧
    (∀ c ∈ levelDomain 0 10 2, ∃ cell, (c, cell) ∈
      runCells (fun x => if x = 5 then Except.error "boom" else Except.ok (2 * x))
        (levelDomain 0 10 2)) ∧
    (∃ cells, runChecked
      (fun x => if x = 5 then Except.error "boom" else Except.ok (2 * x)) 0 10 2 =
        Except.ok cells) ∧
    runChecked (fun x => if x = 5 then Except.error "boom" else Except.ok (2 * x))
        0 10 2 =
      Except.ok [(0, CellValue.ok 0), (5, CellValue.err "boom"),
        (10, CellValue.ok 20)] ∧
    ((runCells (fun x => if x = 5 then Except.error "boom" else Except.ok (2 * x))
        (levelDomain 0 10 2)).filter (fun cell => isErrCell cell.2)).length = 1 ∧
    ((runCells (fun x => if x = 5 then Except.error "boom" else Except.ok (2 * x))
        (levelDomain 0 10 2)).filter (fun cell => !isErrCell cell.2)).length = 2 :=
  C6_failure_isolation
    (fun x => if x = 5 then Except.error "boom" else Except.ok (2 * x))
    0 10 2 (by norm_num)

/-- C8: for each supported reduction over the repeat axis (mean, standard
deviation via its square the variance, min, max), incrementally merging a
newly executed repeat into the existing aggregate yields exactly the value
obtained by recomputing the statistic from scratch over the full
accumulated repeat set `x :: xs ++ [y]`. -/
theorem C8_incremental_reductions (x y : ℚ) (xs : List ℚ) :
    (statsOfList x xs).addRepeat y = statsOfList x (xs ++ [y]) ∧
    ((statsOfList x xs).addRepeat y).mean = listMean x (xs ++ [y]) ∧
    ((statsOfList x xs).addRepeat y).variance = listVariance x (xs ++ [y]) ∧
    ((statsOfList x xs).addRepeat y).minv = listMin x (xs ++ [y]) ∧
    ((statsOfList x xs).addRepeat y).maxv = listMax x (xs ++ [y]) := by
  have hmerge : (statsOfList x xs).addRepeat y = statsOfList x (xs ++ [y]) :=
    (statsOfList_append x y xs).symm
  refine ⟨hmerge, ?_, ?_, ?_, ?_⟩
  · rw [hmerge, mean_statsOfList]
  · rw [hmerge, variance_statsOfList]
  · rw [hmerge, statsOfList_spec]
  · rw [hmerge, statsOfList_spec]

/-- C9: a storage I/O failure on a cache read degrades to a miss (replacing
every failed read by a clean miss leaves the dataset unchanged), a cache
write failure only adds a log line and never alters the dataset, a run whose
every cache access fails produces exactly the uncached result, and every
coordinate still receives a cell — a `CacheError` is never propagated and
never aborts the run. -/
theorem C9_cache_failure_degradation (f : ℚ → ℚ) (read : ℚ → ReadOutcome)
    (writeOk writeOk' : ℚ → Bool) (coords : List ℚ) :
    (runWithCache f read writeOk coords).1 =
      (runWithCache f
        (fun c => match read c with
          | ReadOutcome.readFail => ReadOutcome.miss
          | o => o) writeOk coords).1 ∧
    (runWithCache f read writeOk coords).1 =
      (runWithCache f read writeOk' coords).1 ∧
    (runWithCache f (fun _ => ReadOutcome.readFail) writeOk coords).1 =
      coords.map (fun c => (c, f c)) ∧
    (runWithCache f read writeOk coords).1.length = coords.length := by
  refine ⟨?_, rfl, ?_, List.length_map _ _⟩
  · unfold runWithCache
    simp only
    apply List.map_congr_left
    intro c hc
    cases h : read c <;> simp [resolveCell, degradeRead, h]
  · unfold runWithCache
    simp only
    apply List.map_congr_left
    intro c hc
    rfl
